import Mathlib

/-!
# web-reader: closest-match search, main-content resolution, link filter, speaker

Shallow embedding of `src/helpers/string-comparers/damerau-levenshtein-comparer.js`
together with models of the parts of the repository that are only reachable
through their test files (`dom/main`, `dom/links`, `reader/speaker`).
-/

namespace WebReader

/-! ## FuzzyMatcher: `DamerauLevenshteinComparer.findCloserMatch` -/

/-- The JavaScript numbers held by `minDistance`: a finite non-negative integer
distance, or `Number.POSITIVE_INFINITY` (the initial value, line 25). -/
inductive Distance where
  | finite (n : Nat)
  | infinity
deriving DecidableEq, Repr

/-- JavaScript `a < b` on the numbers of `Distance`. -/
def Distance.lt : Distance → Distance → Bool
  | .finite a, .finite b => decide (a < b)
  | .finite _, .infinity => true
  | .infinity, _ => false

/-- The first parameter of `findCloserMatch`, of JSDoc type `(string|string[])`. -/
inductive StringOrArray where
  | string (s : String)
  | array (xs : List String)
deriving DecidableEq, Repr

/-- One `console.debug` call of line 31, kept as the three interpolated values
of its template literal: `string[i]`, `target` and `distance`. -/
structure DebugEntry where
  candidate : String
  target : String
  distance : Nat
deriving DecidableEq, Repr

/-- The object literal returned at lines 44-47. -/
structure MatchResult where
  index : Int
  distance : Distance
deriving DecidableEq, Repr

/-- The variables of the `for` loop of lines 28-42 plus its two observable
effects: the number of calls of the distance helper (line 29) and the
entries written by `console.debug` (line 31). -/
structure LoopState where
  minDistance : Distance
  index : Int
  calls : Nat
  console : List DebugEntry
deriving DecidableEq, Repr

/-- Lines 25-26: `minDistance = Number.POSITIVE_INFINITY`, `index = -1`, and
nothing computed or logged yet. -/
def LoopState.initial : LoopState :=
  { minDistance := Distance.infinity, index := -1, calls := 0, console := [] }

/-- The `for` loop of lines 28-42. The list is the part of `string` from
position `i` on; `damerauLevenshtein` is the function returned by the
`damerau-levenshtein` package at line 24, which is not part of the sources. -/
def forLoop (damerauLevenshtein : String → String → Nat) (target : String) :
    List String → Nat → LoopState → LoopState
  | [], _, st => st
  | s :: rest, i, st =>
    let distance := damerauLevenshtein s target
    let st1 : LoopState :=
      { st with calls := st.calls + 1,
                console := st.console ++ [{ candidate := s, target := target, distance := distance }] }
    if distance = 0 ∨ Distance.lt (Distance.finite distance) st1.minDistance = true then
      let st2 : LoopState := { st1 with minDistance := Distance.finite distance, index := (i : Int) }
      if distance = 0 then st2
      else forLoop damerauLevenshtein target rest (i + 1) st2
    else forLoop damerauLevenshtein target rest (i + 1) st1

/-- Lines 20-22: a value that is not an array is wrapped in a one-element array. -/
def toArray : StringOrArray → List String
  | .string s => [s]
  | .array xs => xs

/-- The whole run of `findCloserMatch`: normalisation, initialisation, loop. -/
def findCloserMatchRun (damerauLevenshtein : String → String → Nat)
    (string : StringOrArray) (target : String) : LoopState :=
  forLoop damerauLevenshtein target (toArray string) 0 LoopState.initial

/-- The value `findCloserMatch(string, target)` returns (lines 44-47). -/
def findCloserMatch (damerauLevenshtein : String → String → Nat)
    (string : StringOrArray) (target : String) : MatchResult :=
  let st := findCloserMatchRun damerauLevenshtein string target
  { index := st.index, distance := st.minDistance }

/-- The number of candidates the loop visits: up to and including the first
one at distance 0, or all of them. Used only to state properties. -/
def scanned (dl : String → String → Nat) (target : String) : List String → Nat
  | [] => 0
  | s :: rest => if dl s target = 0 then 1 else scanned dl target rest + 1

/-! ## The distance helper of `findCloserMatch` (package `damerau-levenshtein`) -/

/-- Modelled from the spec: one single-character edit of the glossary entry
"Edit distance (Damerau-Levenshtein)": an insertion, a deletion, a
substitution, or a transposition of two adjacent characters. The
`damerau-levenshtein` package that computes the distance is missing. -/
inductive Edit : List Char → List Char → Prop where
  | insertion (l r : List Char) (c : Char) : Edit (l ++ r) (l ++ c :: r)
  | deletion (l r : List Char) (c : Char) : Edit (l ++ c :: r) (l ++ r)
  | substitution (l r : List Char) (c d : Char) : Edit (l ++ c :: r) (l ++ d :: r)
  | transposition (l r : List Char) (c d : Char) : Edit (l ++ c :: d :: r) (l ++ d :: c :: r)

/-- Modelled from the spec: `EditsTo n s t` says that `n` single-character
edits, applied one after the other, transform `s` into `t`. -/
inductive EditsTo : Nat → List Char → List Char → Prop where
  | done (s : List Char) : EditsTo 0 s s
  | step {n : Nat} {s u t : List Char} : Edit s u → EditsTo n u t → EditsTo (n + 1) s t

/-- Modelled from the spec: every string one edit away from the argument,
with inserted and substituted characters drawn from the alphabet `A`. -/
def oneEdit (A : List Char) : List Char → List (List Char)
  | [] => A.map (fun c => [c])
  | x :: xs =>
    A.map (fun c => c :: x :: xs) ++ [xs] ++ A.map (fun c => c :: xs)
      ++ (match xs with
          | y :: ys => [y :: x :: ys]
          | [] => [])
      ++ (oneEdit A xs).map (fun u => x :: u)

/-- Modelled from the spec: whether at most `n` edits over the alphabet `A`
transform `s` into `t`. -/
def within (A : List Char) : Nat → List Char → List Char → Bool
  | 0, s, t => decide (s = t)
  | n + 1, s, t => decide (s = t) || (oneEdit A s).any (fun u => within A n u t)

/-- The first `k` from `n` on with `p k`, giving up after `fuel` tries. -/
def firstFrom (p : Nat → Bool) : Nat → Nat → Nat
  | 0, n => n
  | fuel + 1, n => if p n then n else firstFrom p fuel (n + 1)

/-- Modelled from the spec: the minimum number of single-character
insertions, deletions, substitutions, or adjacent transpositions that
transform `s` into `t`, found by trying 0, 1, 2, ... edits; deleting all of
`s` and inserting all of `t` bounds the search. -/
def editDistance (s t : List Char) : Nat :=
  firstFrom (fun n => within (s ++ t) n s t) (s.length + t.length) 0

/-- Modelled from the spec: the function the missing `damerau-levenshtein`
package returns at line 24, as the glossary defines the distance: the
Damerau-Levenshtein edit distance between the two strings. -/
def damerauLevenshtein (s t : String) : Nat :=
  editDistance s.data t.data

/-! ## DOM model shared by ContentResolver and LinkFilter -/

/-- Modelled from the spec: what sections 4.2 and 4.3 read off a TreeNode.
`mainLandmark`: the element has the semantic main-landmark role;
`suggestsMain`: its role or attribute markers suggest a main-content container;
`hyperlink`: it is a hyperlink-semantic element;
`hidden`: it is hidden by `display:none`, `visibility:hidden` or `aria-hidden`;
`zeroArea`, `labelled`: it has zero area, it has an accessible label. -/
structure Element where
  mainLandmark : Bool
  suggestsMain : Bool
  hyperlink : Bool
  hidden : Bool
  zeroArea : Bool
  labelled : Bool
deriving DecidableEq, Repr

/-- Modelled from the spec: the render tree, as the list of sibling elements
starting at a node: each element comes with its children (first child) and
with the siblings after it (next sibling). A document is the forest of its
top-level elements. -/
inductive Forest where
  | nil
  | cons (element : Element) (children : Forest) (siblings : Forest)
deriving DecidableEq, Repr

/-- The identity of an element: the child indices leading to it from the
top of the document. -/
abbrev Path := List Nat

/-- An element as a query returns it: where it is, what it is, and whether
one of its ancestors is hidden. -/
structure Located where
  path : Path
  element : Element
  hiddenAncestor : Bool
deriving DecidableEq, Repr

/-- Modelled from the spec: the depth-first, pre-order traversal of section
4.3 over the siblings numbered from `i` under `parent`. `hiddenAbove` tells
whether an ancestor of these siblings is hidden. -/
def walk (hiddenAbove : Bool) (parent : Path) : Nat → Forest → List Located
  | _, .nil => []
  | i, .cons e children siblings =>
    { path := parent ++ [i], element := e, hiddenAncestor := hiddenAbove }
      :: (walk (hiddenAbove || e.hidden) (parent ++ [i]) 0 children
          ++ walk hiddenAbove parent (i + 1) siblings)

/-- Modelled from the spec: the element at a path, with its children and
whether one of its ancestors is hidden; `none` when the path leads nowhere. -/
def subtreeAt (hiddenAbove : Bool) : Forest → Path → Option (Bool × Element × Forest)
  | _, [] => none
  | .nil, _ :: _ => none
  | .cons e children _, 0 :: rest =>
    match rest with
    | [] => some (hiddenAbove, e, children)
    | k :: rest' => subtreeAt (hiddenAbove || e.hidden) children (k :: rest')
  | .cons _ _ siblings, (k + 1) :: rest => subtreeAt hiddenAbove siblings (k :: rest)

/-- All elements of the document, in document order. -/
def getElements (doc : Forest) : List Located :=
  walk false [] 0 doc

/-! ## ContentResolver: `getMain` (`src/dom/main.js`, known by its test only) -/

/-- Modelled from the spec: `getMain()` of the missing `src/dom/main.js`,
after section 4.2. Stage 1 looks at the main-landmark elements, stage 2 (when
stage 1 has no candidate) at the elements whose markers suggest a
main-content container; a stage with exactly one candidate returns it, and
"if zero or more than one candidate exists at any resolution stage" the
result is `null` (rule 3, and "a page with two: returns null" of section 8). -/
def getMain (doc : Forest) : Option Located :=
  match (getElements doc).filter (fun l => l.element.mainLandmark) with
  | [m] => some m
  | [] =>
    match (getElements doc).filter (fun l => l.element.suggestsMain) with
    | [p] => some p
    | _ => none
  | _ => none

/-! ## LinkFilter: `getLinks` (`src/dom/links.js`, known by its test only) -/

/-- Modelled from the spec: the inclusion rule of section 4.3. The element is
exposed to assistive technology when it is not hidden itself, is not a
zero-area element without an accessible label, and has no hidden ancestor. -/
def exposed (l : Located) : Bool :=
  !l.element.hidden && !(l.element.zeroArea && !l.element.labelled) && !l.hiddenAncestor

/-- Modelled from the spec: "a hyperlink-semantic element AND exposed to
assistive technology". -/
def isVisibleLink (l : Located) : Bool :=
  l.element.hyperlink && exposed l

/-- Modelled from the spec: the scope of section 4.3, "the whole document, or
only the subtree rooted at `options.ancestor` when supplied". -/
def searchScope (doc : Forest) : Option Path → List Located
  | none => getElements doc
  | some a =>
    match subtreeAt false doc a with
    | some (h, e, children) =>
      { path := a, element := e, hiddenAncestor := h } :: walk (h || e.hidden) a 0 children
    | none => []

/-- Modelled from the spec: `getLinks(options)` of the missing
`src/dom/links.js`: the elements of the scope that pass the inclusion rule,
in traversal order. `ancestor` is `options.ancestor`, absent or an element
given by its path. -/
def getLinks (doc : Forest) (ancestor : Option Path) : List Located :=
  (searchScope doc ancestor).filter isVisibleLink

/-- Document order on paths: an element comes before its descendants and
before its later siblings and their descendants. -/
def DocumentOrder (a b : Located) : Prop :=
  List.Lex (fun x y : Nat => x < y) a.path b.path

/-! ## SpeechOrchestrator: `Speaker` (`src/reader/speaker.js`, known by its test only) -/

/-- Modelled from the spec: PlaybackState of section 3. -/
inductive PlaybackState where
  | Idle
  | Speaking
deriving DecidableEq, Repr

/-- Modelled from the spec: the three lifecycle notifications of section 4.4
(`webreader.synthesisstart`, `webreader.synthesisend`, `webreader.synthesiserror`). -/
inductive EventName where
  | synthesisstart
  | synthesisend
  | synthesiserror
deriving DecidableEq, Repr

/-- A notification as a listener on the event bus receives it: its name, the
utterance it is about (utterances are numbered in the order of the `speak()`
calls), and what `speaker.isSpeaking()` answers inside the listener. -/
structure Notification where
  name : EventName
  utterance : Nat
  speaking : Bool
deriving DecidableEq, Repr

/-- Modelled from the spec: a `Speaker` of the missing `src/reader/speaker.js`:
its PlaybackState, the number of the last utterance submitted, whether the
platform has started it, and the notifications delivered so far. -/
structure Speaker where
  state : PlaybackState
  utterance : Nat
  started : Bool
  delivered : List Notification
deriving DecidableEq, Repr

/-- Modelled from the spec: a new speaker is `Idle`. -/
def Speaker.create : Speaker :=
  { state := PlaybackState.Idle, utterance := 0, started := false, delivered := [] }

/-- Modelled from the spec: `isSpeaking()` "reflects current state". -/
def Speaker.isSpeaking (s : Speaker) : Bool :=
  match s.state with
  | .Speaking => true
  | .Idle => false

/-- What can happen to a speaker: the caller's `speak()` and `cancel()`, and
the platform reporting that the utterance in flight started, completed or
failed. -/
inductive Action where
  | speak
  | cancel
  | platformStart
  | platformEnd
  | platformError
deriving DecidableEq, Repr

/-- Delivers a notification about the current utterance; listeners run during
the delivery and see the speaker as it is then. -/
def Speaker.publish (s : Speaker) (name : EventName) : Speaker :=
  { s with delivered := s.delivered ++
      [{ name := name, utterance := s.utterance, speaking := s.isSpeaking }] }

/-- Modelled from the spec: the state machine of section 4.4,
`Idle --speak()--> Speaking --(complete | cancel | error)--> Idle`.
`speak()` while `Speaking` is undefined by contract (`none`); `cancel()` is
always allowed, forces `Idle` and suppresses the notifications of the
utterance; the platform's reports are taken only for the utterance in flight,
`synthesisstart` strictly before `synthesisend` or `synthesiserror`; on
completion the state is `Idle` when `synthesisend` is delivered
(`speaker.spec.js`, lines 53-57 and 230). -/
def Speaker.step (s : Speaker) : Action → Option Speaker
  | .speak =>
    match s.state with
    | .Idle => some { s with state := PlaybackState.Speaking, utterance := s.utterance + 1,
                             started := false }
    | .Speaking => none
  | .cancel => some { s with state := PlaybackState.Idle, started := false }
  | .platformStart =>
    if s.state = PlaybackState.Speaking ∧ s.started = false then
      some (Speaker.publish { s with started := true } EventName.synthesisstart)
    else none
  | .platformEnd =>
    if s.state = PlaybackState.Speaking ∧ s.started = true then
      some (Speaker.publish { s with state := PlaybackState.Idle, started := false }
        EventName.synthesisend)
    else none
  | .platformError =>
    if s.state = PlaybackState.Speaking ∧ s.started = true then
      some (Speaker.publish { s with state := PlaybackState.Idle, started := false }
        EventName.synthesiserror)
    else none

/-- A sequence of actions, from left to right; `none` when one of them is
not possible. -/
def Speaker.run (s : Speaker) : List Action → Option Speaker
  | [] => some s
  | a :: rest =>
    match s.step a with
    | some s' => s'.run rest
    | none => none

/-- What holds of every speaker reached from a new one. -/
structure Speaker.Invariant (s : Speaker) : Prop where
  start_speaking : ∀ n ∈ s.delivered, n.name = EventName.synthesisstart → n.speaking = true
  end_idle : ∀ n ∈ s.delivered, n.name = EventName.synthesisend → n.speaking = false
  start_before_end : ∀ (i : Nat) (n : Notification), s.delivered[i]? = some n →
    n.name = EventName.synthesisend →
    ∃ j : Nat, j < i ∧ s.delivered[j]? = some
      { name := EventName.synthesisstart, utterance := n.utterance, speaking := true }
  in_flight : s.state = PlaybackState.Speaking → s.started = true →
    ∃ j : Nat, s.delivered[j]? = some
      { name := EventName.synthesisstart, utterance := s.utterance, speaking := true }

/-! ## Example pages -/

/-- An element with no marker at all. -/
def Element.plain : Element :=
  { mainLandmark := false, suggestsMain := false, hyperlink := false, hidden := false,
    zeroArea := false, labelled := false }

/-- A hyperlink element. -/
def Element.anchor : Element :=
  { Element.plain with hyperlink := true }

/-- A page made of a navigation block with a visible and a hidden link, a
main-landmark element, and a footer with a visible link and a link inside a
hidden block. -/
def examplePage : Forest :=
  Forest.cons Element.plain
    (Forest.cons Element.anchor Forest.nil
      (Forest.cons { Element.anchor with hidden := true } Forest.nil Forest.nil))
    (Forest.cons { Element.plain with mainLandmark := true } Forest.nil
      (Forest.cons Element.plain
        (Forest.cons Element.anchor Forest.nil
          (Forest.cons { Element.plain with hidden := true }
            (Forest.cons Element.anchor Forest.nil Forest.nil) Forest.nil))
        Forest.nil))

/-! ## Theorems -/

theorem distance_lt_trans_finite {a b : Nat} {m : Distance}
    (hab : b < a) (ham : Distance.lt (Distance.finite a) m = true) :
    Distance.lt (Distance.finite b) m = true := by
  cases m with
  | finite k => simp [Distance.lt] at ham ⊢; omega
  | infinity => rfl

theorem distance_lt_of_lt_of_not_lt {a b : Nat} {m : Distance}
    (hb : Distance.lt (Distance.finite b) m = true)
    (ha : Distance.lt (Distance.finite a) m = false) : b < a := by
  cases m with
  | finite k => simp [Distance.lt] at ha hb; omega
  | infinity => simp [Distance.lt] at ha

theorem forLoop_cons (dl : String → String → Nat) (t s : String) (rest : List String)
    (i : Nat) (st : LoopState) :
    forLoop dl t (s :: rest) i st =
      if dl s t = 0 ∨ Distance.lt (Distance.finite (dl s t)) st.minDistance = true then
        if dl s t = 0 then
          { minDistance := Distance.finite (dl s t), index := (i : Int), calls := st.calls + 1,
            console := st.console ++ [{ candidate := s, target := t, distance := dl s t }] }
        else forLoop dl t rest (i + 1)
          { minDistance := Distance.finite (dl s t), index := (i : Int), calls := st.calls + 1,
            console := st.console ++ [{ candidate := s, target := t, distance := dl s t }] }
      else forLoop dl t rest (i + 1)
          { st with calls := st.calls + 1,
                    console := st.console ++ [{ candidate := s, target := t, distance := dl s t }] } := by
  rfl

theorem forLoop_calls (dl : String → String → Nat) (t : String) :
    ∀ (l : List String) (i : Nat) (st : LoopState),
      (forLoop dl t l i st).calls = st.calls + scanned dl t l := by
  intro l
  induction l with
  | nil => intro i st; rfl
  | cons s rest ih =>
    intro i st
    rw [forLoop_cons]
    by_cases h0 : dl s t = 0
    · simp [h0, scanned]
    · by_cases hlt : Distance.lt (Distance.finite (dl s t)) st.minDistance = true
      · simp only [h0, hlt, or_true, if_true, if_false, scanned]
        rw [ih]; simp; omega
      · rw [if_neg (by simp [h0, hlt])]
        simp only [h0, if_false, scanned]
        rw [ih]; simp; omega

theorem forLoop_console (dl : String → String → Nat) (t : String) :
    ∀ (l : List String) (i : Nat) (st : LoopState),
      (forLoop dl t l i st).console =
        st.console ++ (l.take (scanned dl t l)).map
          (fun c => ({ candidate := c, target := t, distance := dl c t } : DebugEntry)) := by
  intro l
  induction l with
  | nil => intro i st; simp [forLoop, scanned]
  | cons s rest ih =>
    intro i st
    rw [forLoop_cons]
    by_cases h0 : dl s t = 0
    · simp [h0, scanned]
    · by_cases hlt : Distance.lt (Distance.finite (dl s t)) st.minDistance = true
      · simp only [h0, hlt, or_true, if_true, if_false, scanned]
        rw [ih]; simp
      · rw [if_neg (by simp [h0, hlt])]
        simp only [h0, if_false, scanned]
        rw [ih]; simp

theorem forLoop_spec (dl : String → String → Nat) (t : String) :
    ∀ (l : List String) (i : Nat) (st : LoopState),
      ((forLoop dl t l i st).index = st.index ∧
        (forLoop dl t l i st).minDistance = st.minDistance ∧
        ∀ c ∈ l, dl c t ≠ 0 ∧ Distance.lt (Distance.finite (dl c t)) st.minDistance = false) ∨
      (∃ (j : Nat) (c : String), l[j]? = some c ∧
        (forLoop dl t l i st).index = ((i + j : Nat) : Int) ∧
        (forLoop dl t l i st).minDistance = Distance.finite (dl c t) ∧
        (dl c t = 0 ∨ Distance.lt (Distance.finite (dl c t)) st.minDistance = true) ∧
        (∀ (j' : Nat) (c' : String), l[j']? = some c' → dl c t ≤ dl c' t) ∧
        (∀ (j' : Nat) (c' : String), j' < j → l[j']? = some c' → dl c t < dl c' t)) := by
  intro l
  induction l with
  | nil => intro i st; left; simp [forLoop]
  | cons s rest ih =>
    intro i st
    rw [forLoop_cons]
    by_cases h0 : dl s t = 0
    · right
      refine ⟨0, s, by simp, ?_⟩
      simp [h0]
    · by_cases hlt : Distance.lt (Distance.finite (dl s t)) st.minDistance = true
      · simp only [h0, hlt, or_true, if_true, if_false]
        right
        rcases ih (i + 1) (⟨Distance.finite (dl s t), (i : Int), st.calls + 1,
            st.console ++ [{ candidate := s, target := t, distance := dl s t }]⟩ : LoopState)
          with ⟨hi, hm, hall⟩ | ⟨j, c, hj, hi, hm, hupd, hmin, hfirst⟩
        · refine ⟨0, s, by simp, by simpa using hi, by simpa using hm, Or.inr hlt, ?_, ?_⟩
          · intro j' c' hj'
            cases j' with
            | zero => simp at hj'; subst hj'; exact le_refl _
            | succ k =>
              simp at hj'
              have := (hall c' (List.getElem?_mem hj')).2
              simp [Distance.lt] at this
              exact this
          · intro j' c' hlt'; omega
        · have hcs : dl c t < dl s t := by
            rcases hupd with hz | hl
            · omega
            · simpa [Distance.lt] using hl
          refine ⟨j + 1, c, by simpa using hj, ?_, hm, Or.inr (distance_lt_trans_finite hcs hlt), ?_, ?_⟩
          · rw [hi]; push_cast; ring
          · intro j' c' hj'
            cases j' with
            | zero => simp at hj'; subst hj'; exact le_of_lt hcs
            | succ k => simp at hj'; exact hmin k c' hj'
          · intro j' c' hlt' hj'
            cases j' with
            | zero => simp at hj'; subst hj'; exact hcs
            | succ k => simp at hj'; exact hfirst k c' (by omega) hj'
      · rw [if_neg (by simp [h0, hlt])]
        have hlt2 : Distance.lt (Distance.finite (dl s t)) st.minDistance = false := by
          simpa using hlt
        rcases ih (i + 1) (⟨st.minDistance, st.index, st.calls + 1,
            st.console ++ [{ candidate := s, target := t, distance := dl s t }]⟩ : LoopState)
          with ⟨hi, hm, hall⟩ | ⟨j, c, hj, hi, hm, hupd, hmin, hfirst⟩
        · left
          refine ⟨hi, hm, ?_⟩
          intro c hc
          rcases List.mem_cons.1 hc with rfl | hc
          · exact ⟨h0, hlt2⟩
          · exact hall c hc
        · right
          have hcs : dl c t < dl s t := by
            rcases hupd with hz | hl
            · omega
            · exact distance_lt_of_lt_of_not_lt hl hlt2
          refine ⟨j + 1, c, by simpa using hj, ?_, hm, hupd, ?_, ?_⟩
          · rw [hi]; push_cast; ring
          · intro j' c' hj'
            cases j' with
            | zero => simp at hj'; subst hj'; exact le_of_lt hcs
            | succ k => simp at hj'; exact hmin k c' hj'
          · intro j' c' hlt' hj'
            cases j' with
            | zero => simp at hj'; subst hj'; exact hcs
            | succ k => simp at hj'; exact hfirst k c' (by omega) hj'

theorem edit_cons (x : Char) {s u : List Char} (h : Edit s u) : Edit (x :: s) (x :: u) := by
  cases h with
  | insertion l r c => exact Edit.insertion (x :: l) r c
  | deletion l r c => exact Edit.deletion (x :: l) r c
  | substitution l r c d => exact Edit.substitution (x :: l) r c d
  | transposition l r c d => exact Edit.transposition (x :: l) r c d

theorem edit_symm {s u : List Char} (h : Edit s u) : Edit u s := by
  cases h with
  | insertion l r c => exact Edit.deletion l r c
  | deletion l r c => exact Edit.insertion l r c
  | substitution l r c d => exact Edit.substitution l r d c
  | transposition l r c d => exact Edit.transposition l r d c

theorem edit_map (f : Char → Char) {s u : List Char} (h : Edit s u) :
    Edit (s.map f) (u.map f) := by
  cases h with
  | insertion l r c => simpa using Edit.insertion (l.map f) (r.map f) (f c)
  | deletion l r c => simpa using Edit.deletion (l.map f) (r.map f) (f c)
  | substitution l r c d => simpa using Edit.substitution (l.map f) (r.map f) (f c) (f d)
  | transposition l r c d => simpa using Edit.transposition (l.map f) (r.map f) (f c) (f d)

theorem oneEdit_sound (A : List Char) :
    ∀ (s u : List Char), u ∈ oneEdit A s → Edit s u := by
  intro s
  induction s with
  | nil =>
    intro u hu
    simp only [oneEdit, List.mem_map] at hu
    obtain ⟨c, -, rfl⟩ := hu
    exact Edit.insertion [] [] c
  | cons x xs ih =>
    intro u hu
    simp only [oneEdit, List.mem_append, List.mem_map, List.mem_singleton] at hu
    rcases hu with (((⟨c, -, rfl⟩ | rfl) | ⟨c, -, rfl⟩) | hu) | ⟨v, hv, rfl⟩
    · exact Edit.insertion [] (x :: xs) c
    · exact Edit.deletion [] _ x
    · exact Edit.substitution [] xs x c
    · cases xs with
      | nil => simp at hu
      | cons y ys =>
        simp only [List.mem_singleton] at hu
        subst hu
        exact Edit.transposition [] ys x y
    · exact edit_cons x (ih v hv)

theorem oneEdit_cons_mem (A : List Char) (x : Char) {s u : List Char}
    (h : u ∈ oneEdit A s) : (x :: u) ∈ oneEdit A (x :: s) := by
  simp only [oneEdit, List.mem_append, List.mem_map]
  exact Or.inr ⟨u, h, rfl⟩

theorem oneEdit_complete (A : List Char) {s u : List Char} (h : Edit s u)
    (hA : ∀ c ∈ u, c ∈ A) : u ∈ oneEdit A s := by
  have key : ∀ (l : List Char) (s' u' : List Char), (∀ c ∈ l ++ u', c ∈ A) →
      u' ∈ oneEdit A s' → (l ++ u') ∈ oneEdit A (l ++ s') := by
    intro l
    induction l with
    | nil => intro s' u' _ h'; simpa using h'
    | cons a l ih =>
      intro s' u' hA' h'
      exact oneEdit_cons_mem A a (ih s' u' (fun c hc => hA' c (by simp [hc])) h')
  cases h with
  | insertion l r c =>
    apply key l r (c :: r) hA
    have hc : c ∈ A := hA c (by simp)
    cases r with
    | nil => simp only [oneEdit, List.mem_map]; exact ⟨c, hc, rfl⟩
    | cons x xs =>
      simp only [oneEdit, List.mem_append, List.mem_map]
      exact Or.inl (Or.inl (Or.inl (Or.inl ⟨c, hc, rfl⟩)))
  | deletion l r c =>
    apply key l (c :: r) r hA
    simp only [oneEdit, List.mem_append, List.mem_map, List.mem_singleton]
    exact Or.inl (Or.inl (Or.inl (Or.inr trivial)))
  | substitution l r c d =>
    apply key l (c :: r) (d :: r) hA
    have hd : d ∈ A := hA d (by simp)
    simp only [oneEdit, List.mem_append, List.mem_map]
    exact Or.inl (Or.inl (Or.inr ⟨d, hd, rfl⟩))
  | transposition l r c d =>
    apply key l (c :: d :: r) (d :: c :: r) hA
    simp only [oneEdit, List.mem_append, List.mem_map, List.mem_singleton]
    exact Or.inl (Or.inr trivial)

theorem editsTo_trans {n m : Nat} {s u t : List Char}
    (h1 : EditsTo n s u) (h2 : EditsTo m u t) : EditsTo (n + m) s t := by
  induction h1 with
  | done s => simpa using h2
  | step e _ ih =>
    have := EditsTo.step e (ih h2)
    rw [Nat.add_right_comm]
    exact this

theorem editsTo_symm {n : Nat} {s t : List Char} (h : EditsTo n s t) : EditsTo n t s := by
  induction h with
  | done s => exact EditsTo.done s
  | step e _ ih => exact editsTo_trans ih (EditsTo.step (edit_symm e) (EditsTo.done _))

theorem editsTo_zero_iff {s t : List Char} : EditsTo 0 s t ↔ s = t := by
  constructor
  · intro h; cases h; rfl
  · rintro rfl; exact EditsTo.done s

theorem editsTo_deleteAll : ∀ (s : List Char), EditsTo s.length s []
  | [] => EditsTo.done []
  | x :: xs => EditsTo.step (Edit.deletion [] xs x) (editsTo_deleteAll xs)

theorem within_sound (A : List Char) :
    ∀ (n : Nat) (s t : List Char), within A n s t = true → ∃ m, m ≤ n ∧ EditsTo m s t := by
  intro n
  induction n with
  | zero =>
    intro s t h
    simp only [within, decide_eq_true_eq] at h
    subst h
    exact ⟨0, le_refl _, EditsTo.done s⟩
  | succ n ih =>
    intro s t h
    simp only [within, Bool.or_eq_true, decide_eq_true_eq, List.any_eq_true] at h
    rcases h with rfl | ⟨u, hu, hw⟩
    · exact ⟨0, Nat.zero_le _, EditsTo.done s⟩
    · obtain ⟨m, hm, hc⟩ := ih u t hw
      exact ⟨m + 1, by omega, EditsTo.step (oneEdit_sound A s u hu) hc⟩

theorem within_succ (A : List Char) :
    ∀ (n : Nat) (s t : List Char), within A n s t = true → within A (n + 1) s t = true := by
  intro n
  induction n with
  | zero =>
    intro s t h
    simp only [within, decide_eq_true_eq] at h
    simp [within, h]
  | succ n ih =>
    intro s t h
    rw [within] at h
    rw [within]
    simp only [Bool.or_eq_true, decide_eq_true_eq, List.any_eq_true] at h ⊢
    rcases h with rfl | ⟨u, hu, hw⟩
    · exact Or.inl rfl
    · exact Or.inr ⟨u, hu, ih u t hw⟩

theorem within_mono (A : List Char) {n k : Nat} (hnk : n ≤ k) {s t : List Char}
    (h : within A n s t = true) : within A k s t = true := by
  induction hnk with
  | refl => exact h
  | step _ ih => exact within_succ A _ s t ih

theorem within_complete (A : List Char) (f : Char → Char) (hf : ∀ c, f c ∈ A)
    {n : Nat} {s t : List Char} (h : EditsTo n s t) :
    within A n (s.map f) (t.map f) = true := by
  induction h with
  | done s => simp [within]
  | step e _ ih =>
    rename_i n s u t _
    rw [within]
    simp only [Bool.or_eq_true, decide_eq_true_eq, List.any_eq_true]
    refine Or.inr ⟨u.map f, oneEdit_complete A (edit_map f e) ?_, ih⟩
    intro c hc
    obtain ⟨d, -, rfl⟩ := List.mem_map.1 hc
    exact hf d

theorem within_self (A : List Char) (n : Nat) (s : List Char) : within A n s s = true := by
  cases n <;> simp [within]

theorem within_complete_self {n : Nat} {s t : List Char} (h : EditsTo n s t) :
    within (s ++ t) n s t = true := by
  cases hA : s ++ t with
  | nil =>
    have hs : s = [] := (List.append_eq_nil.1 hA).1
    have ht : t = [] := (List.append_eq_nil.1 hA).2
    subst hs; subst ht
    exact within_self _ _ _
  | cons a rest =>
    rw [← hA]
    have ha : a ∈ s ++ t := by rw [hA]; simp
    have hmap : ∀ (l : List Char), (∀ c ∈ l, c ∈ s ++ t) →
        l.map (fun c => if c ∈ s ++ t then c else a) = l := by
      intro l hl
      induction l with
      | nil => rfl
      | cons x xs ih =>
        have hx : x ∈ s ++ t := hl x (by simp)
        simp only [List.map_cons, if_pos hx]
        rw [ih (fun c hc => hl c (by simp [hc]))]
    have key := within_complete (s ++ t) (fun c => if c ∈ s ++ t then c else a)
      (by intro c; by_cases hc : c ∈ s ++ t
          · simp only [if_pos hc]; exact hc
          · simp only [if_neg hc]; exact ha) h
    rw [hmap s (fun c hc => by simp [hc]), hmap t (fun c hc => by simp [hc])] at key
    exact key

theorem firstFrom_spec (p : Nat → Bool) :
    ∀ (fuel n : Nat),
      (∀ k, n ≤ k → k < firstFrom p fuel n → p k = false) ∧
      (p (firstFrom p fuel n) = true ∨ firstFrom p fuel n = n + fuel) := by
  intro fuel
  induction fuel with
  | zero => intro n; simp [firstFrom]; intro k h1 h2; omega
  | succ fuel ih =>
    intro n
    by_cases hp : p n = true
    · have e : firstFrom p (fuel + 1) n = n := by simp [firstFrom, hp]
      rw [e]
      exact ⟨fun k h1 h2 => by omega, Or.inl hp⟩
    · have e : firstFrom p (fuel + 1) n = firstFrom p fuel (n + 1) := by simp [firstFrom, hp]
      rw [e]
      obtain ⟨h1, h2⟩ := ih (n + 1)
      refine ⟨?_, ?_⟩
      · intro k hk hlt
        rcases Nat.eq_or_lt_of_le hk with rfl | hk'
        · simpa using hp
        · exact h1 k hk' hlt
      · rcases h2 with h2 | h2
        · exact Or.inl h2
        · exact Or.inr (by omega)

theorem editDistance_le {n : Nat} {s t : List Char} (h : EditsTo n s t) :
    editDistance s t ≤ n := by
  by_contra hlt
  have := (firstFrom_spec (fun n => within (s ++ t) n s t) (s.length + t.length) 0).1 n
    (Nat.zero_le _) (by unfold editDistance at hlt; omega)
  simp [within_complete_self h] at this

theorem editDistance_editsTo (s t : List Char) : EditsTo (editDistance s t) s t := by
  rcases (firstFrom_spec (fun n => within (s ++ t) n s t) (s.length + t.length) 0).2 with h | h
  · obtain ⟨m, hm, hc⟩ := within_sound (s ++ t) _ s t h
    have hle := editDistance_le hc
    have hm' : m = editDistance s t := by unfold editDistance at hle ⊢; omega
    rw [← hm']; exact hc
  · have hd : editDistance s t = s.length + t.length := by unfold editDistance; omega
    rw [hd]
    exact editsTo_trans (editsTo_deleteAll s) (editsTo_symm (editsTo_deleteAll t))

theorem editDistance_isLeast (s t : List Char) :
    IsLeast {n | EditsTo n s t} (editDistance s t) :=
  ⟨editDistance_editsTo s t, fun _ hn => editDistance_le hn⟩

theorem editDistance_comm (s t : List Char) : editDistance s t = editDistance t s :=
  le_antisymm (editDistance_le (editsTo_symm (editDistance_editsTo t s)))
    (editDistance_le (editsTo_symm (editDistance_editsTo s t)))

theorem editDistance_triangle (s u t : List Char) :
    editDistance s t ≤ editDistance s u + editDistance u t :=
  editDistance_le (editsTo_trans (editDistance_editsTo s u) (editDistance_editsTo u t))

theorem editDistance_eq_zero_iff (s t : List Char) : editDistance s t = 0 ↔ s = t := by
  constructor
  · intro h
    have := editDistance_editsTo s t
    rw [h] at this
    exact editsTo_zero_iff.1 this
  · rintro rfl
    exact Nat.le_zero.1 (editDistance_le (EditsTo.done s))

theorem damerauLevenshtein_eq_zero_iff (s t : String) :
    damerauLevenshtein s t = 0 ↔ s = t := by
  unfold damerauLevenshtein
  rw [editDistance_eq_zero_iff]
  exact String.ext_iff.symm

theorem scanned_first (dl : String → String → Nat) (t : String) :
    ∀ (l : List String) (j : Nat) (c : String), l[j]? = some c → dl c t = 0 →
      (∀ (j' : Nat) (c' : String), j' < j → l[j']? = some c' → dl c' t ≠ 0) →
      scanned dl t l = j + 1 := by
  intro l
  induction l with
  | nil => intro j c hj; simp at hj
  | cons s rest ih =>
    intro j c hj hc hfirst
    cases j with
    | zero =>
      simp at hj; subst hj
      simp [scanned, hc]
    | succ k =>
      have hs : dl s t ≠ 0 := hfirst 0 s (by omega) (by simp)
      simp only [scanned, hs, if_false]
      rw [ih k c (by simpa using hj) hc
        (fun j' c' hlt hj' => hfirst (j' + 1) c' (by omega) (by simpa using hj'))]

theorem scanned_all (dl : String → String → Nat) (t : String) :
    ∀ (l : List String), (∀ c ∈ l, dl c t ≠ 0) → scanned dl t l = l.length := by
  intro l
  induction l with
  | nil => intro _; rfl
  | cons s rest ih =>
    intro h
    have hs : dl s t ≠ 0 := h s (by simp)
    simp only [scanned, hs, if_false, List.length_cons]
    rw [ih (fun c hc => h c (by simp [hc]))]

theorem findCloserMatchRun_spec (dl : String → String → Nat) (candidates : List String)
    (target : String) (hne : candidates ≠ []) :
    ∃ (j : Nat) (c : String), candidates[j]? = some c ∧
      (findCloserMatchRun dl (StringOrArray.array candidates) target).index = (j : Int) ∧
      (findCloserMatchRun dl (StringOrArray.array candidates) target).minDistance
        = Distance.finite (dl c target) ∧
      (∀ (j' : Nat) (c' : String), candidates[j']? = some c' → dl c target ≤ dl c' target) ∧
      (∀ (j' : Nat) (c' : String), j' < j → candidates[j']? = some c' →
        dl c target < dl c' target) := by
  rcases forLoop_spec dl target candidates 0 LoopState.initial
    with ⟨-, -, hall⟩ | ⟨j, c, hj, hi, hm, -, hmin, hfirst⟩
  · cases candidates with
    | nil => exact absurd rfl hne
    | cons s rest =>
      have := (hall s (by simp)).2
      simp [LoopState.initial, Distance.lt] at this
  · exact ⟨j, c, hj, by simpa using hi, hm, hmin, hfirst⟩

theorem findCloserMatchRun_exact (dl : String → String → Nat) (candidates : List String)
    (target : String) (hdl : ∀ c, dl c target = 0 ↔ c = target) (h : target ∈ candidates) :
    ∃ j : Nat, candidates[j]? = some target ∧
      (∀ j' : Nat, j' < j → candidates[j']? ≠ some target) ∧
      (findCloserMatchRun dl (StringOrArray.array candidates) target).index = (j : Int) ∧
      (findCloserMatchRun dl (StringOrArray.array candidates) target).minDistance
        = Distance.finite 0 ∧
      (findCloserMatchRun dl (StringOrArray.array candidates) target).calls = j + 1 := by
  have hne : candidates ≠ [] := by rintro rfl; simp at h
  obtain ⟨j, c, hj, hi, hm, hmin, hfirst⟩ := findCloserMatchRun_spec dl candidates target hne
  obtain ⟨k, hk⟩ := List.getElem?_of_mem h
  have hc0 : dl c target = 0 := by
    have := hmin k target hk
    rw [(hdl target).2 rfl] at this
    omega
  have hct : c = target := (hdl c).1 hc0
  subst hct
  have hnot : ∀ j' : Nat, j' < j → candidates[j']? ≠ some c := by
    intro j' hlt hj'
    have := hfirst j' c hlt hj'
    omega
  refine ⟨j, hj, hnot, hi, by rw [hm, hc0], ?_⟩
  have hcalls := forLoop_calls dl c candidates 0 LoopState.initial
  have hsc := scanned_first dl c candidates j c hj hc0
    (fun j' c' hlt hj' h0 => hnot j' hlt (by rw [hj', (hdl c').1 h0]))
  unfold findCloserMatchRun toArray
  rw [hcalls, hsc]
  simp [LoopState.initial]

/-- C1: when some candidate equals `target` (and the distance helper gives 0
exactly for equal strings), `findCloserMatch` returns distance 0 and the
index of the first candidate equal to `target`; so when `target` occurs at
one position only, that position is returned. -/
theorem findCloserMatch_exact_match (dl : String → String → Nat) (candidates : List String)
    (target : String) (hdl : ∀ c, dl c target = 0 ↔ c = target) (h : target ∈ candidates) :
    (∃ j : Nat, candidates[j]? = some target ∧
      (∀ j' : Nat, j' < j → candidates[j']? ≠ some target) ∧
      findCloserMatch dl (StringOrArray.array candidates) target
        = { index := (j : Int), distance := Distance.finite 0 }) ∧
    (∀ k : Nat, candidates[k]? = some target →
      (∀ k' : Nat, candidates[k']? = some target → k' = k) →
      findCloserMatch dl (StringOrArray.array candidates) target
        = { index := (k : Int), distance := Distance.finite 0 }) := by
  obtain ⟨j, hj, hnot, hi, hm, -⟩ := findCloserMatchRun_exact dl candidates target hdl h
  have hres : findCloserMatch dl (StringOrArray.array candidates) target
      = { index := (j : Int), distance := Distance.finite 0 } := by
    unfold findCloserMatch
    simp only [hi, hm]
  refine ⟨⟨j, hj, hnot, hres⟩, ?_⟩
  intro k _ huniq
  rw [hres, huniq j hj]

/-- Witness of C1 on `["ab", "abc", "abc"]` and target `"abc"`, with the
modelled Damerau-Levenshtein distance as the helper. -/
theorem findCloserMatch_exact_match_witness :
    ∃ j : Nat, ["ab", "abc", "abc"][j]? = some "abc" ∧
      (∀ j' : Nat, j' < j → ["ab", "abc", "abc"][j']? ≠ some "abc") ∧
      findCloserMatch damerauLevenshtein (StringOrArray.array ["ab", "abc", "abc"]) "abc"
        = { index := (j : Int), distance := Distance.finite 0 } :=
  (findCloserMatch_exact_match damerauLevenshtein ["ab", "abc", "abc"] "abc"
    (fun c => damerauLevenshtein_eq_zero_iff c "abc") (by decide)).1

/-- C2: on a non-empty candidate array, `findCloserMatch` returns the minimum
of the distances between the candidates and `target`, with the lowest index
whose candidate attains it: every earlier candidate is strictly farther. In
particular this holds when no candidate equals `target`. -/
theorem findCloserMatch_minimum (dl : String → String → Nat) (candidates : List String)
    (target : String) (hne : candidates ≠ []) :
    ∃ (j : Nat) (c : String), candidates[j]? = some c ∧
      findCloserMatch dl (StringOrArray.array candidates) target
        = { index := (j : Int), distance := Distance.finite (dl c target) } ∧
      (∀ c' ∈ candidates, dl c target ≤ dl c' target) ∧
      (∀ (j' : Nat) (c' : String), j' < j → candidates[j']? = some c' →
        dl c target < dl c' target) := by
  obtain ⟨j, c, hj, hi, hm, hmin, hfirst⟩ := findCloserMatchRun_spec dl candidates target hne
  refine ⟨j, c, hj, ?_, ?_, hfirst⟩
  · unfold findCloserMatch
    simp only [hi, hm]
  · intro c' hc'
    obtain ⟨k, hk⟩ := List.getElem?_of_mem hc'
    exact hmin k c' hk

/-- Witness of C2 on `["abcd", "abd", "abx"]` and target `"abc"`: no candidate
equals the target and two of them are at the minimum distance 1. -/
theorem findCloserMatch_minimum_witness :
    ∃ (j : Nat) (c : String), ["abcd", "abd", "abx"][j]? = some c ∧
      findCloserMatch damerauLevenshtein (StringOrArray.array ["abcd", "abd", "abx"]) "abc"
        = { index := (j : Int), distance := Distance.finite (damerauLevenshtein c "abc") } ∧
      (∀ c' ∈ ["abcd", "abd", "abx"], damerauLevenshtein c "abc" ≤ damerauLevenshtein c' "abc") ∧
      (∀ (j' : Nat) (c' : String), j' < j → ["abcd", "abd", "abx"][j']? = some c' →
        damerauLevenshtein c "abc" < damerauLevenshtein c' "abc") :=
  findCloserMatch_minimum damerauLevenshtein ["abcd", "abd", "abx"] "abc" (by decide)

/-- C3: with an empty candidate array the loop body never runs (no distance
is computed, nothing is logged) and `{index: -1, distance: +infinity}` is
returned, whatever the target and the distance helper. -/
theorem findCloserMatch_empty (dl : String → String → Nat) (target : String) :
    findCloserMatch dl (StringOrArray.array []) target
        = { index := -1, distance := Distance.infinity } ∧
      (findCloserMatchRun dl (StringOrArray.array []) target).calls = 0 ∧
      (findCloserMatchRun dl (StringOrArray.array []) target).console = [] :=
  ⟨rfl, rfl, rfl⟩

/-- C4: the distance `findCloserMatch` reports for a single candidate is the
value of the distance helper, which (as the glossary defines it) is the
minimum number of single-character insertions, deletions, substitutions and
adjacent transpositions turning the candidate into the target; that number
is symmetric in the two strings and satisfies the triangle inequality. -/
theorem findCloserMatch_distance_is_edit_distance (c target : String) :
    (findCloserMatch damerauLevenshtein (StringOrArray.array [c]) target).distance
        = Distance.finite (damerauLevenshtein c target) ∧
      IsLeast {n | EditsTo n c.data target.data} (damerauLevenshtein c target) ∧
      damerauLevenshtein c target = damerauLevenshtein target c ∧
      (∀ u : String, damerauLevenshtein c target
        ≤ damerauLevenshtein c u + damerauLevenshtein u target) := by
  refine ⟨?_, editDistance_isLeast c.data target.data,
    editDistance_comm c.data target.data,
    fun u => editDistance_triangle c.data u.data target.data⟩
  obtain ⟨j, d, hj, -, hm, -, -⟩ :=
    findCloserMatchRun_spec damerauLevenshtein [c] target (by simp)
  cases j with
  | zero => simp at hj; subst hj; exact hm
  | succ k => simp at hj

/-- C5: `findCloserMatch` returns a result for every array of strings and
every target; the index it returns is -1 exactly when the array passed by
the caller is empty, and for a non-empty array it is a position `j` of that
array, `0 <= j < candidates.length`, returned with the finite distance
between `candidates[j]` and `target`. A single string counts as the array
holding it, so its index is 0, never -1. -/
theorem findCloserMatch_index (dl : String → String → Nat) (candidates : List String)
    (s target : String) :
    ((findCloserMatch dl (StringOrArray.array candidates) target).index = -1
        ↔ candidates = []) ∧
      (candidates ≠ [] →
        ∃ (j : Nat) (c : String),
          (findCloserMatch dl (StringOrArray.array candidates) target).index = (j : Int) ∧
          0 ≤ (findCloserMatch dl (StringOrArray.array candidates) target).index ∧
          (findCloserMatch dl (StringOrArray.array candidates) target).index
            < (candidates.length : Int) ∧
          candidates[j]? = some c ∧
          (findCloserMatch dl (StringOrArray.array candidates) target).distance
            = Distance.finite (dl c target)) ∧
      (findCloserMatch dl (StringOrArray.string s) target).index = 0 ∧
      (findCloserMatch dl (StringOrArray.string s) target).distance
        = Distance.finite (dl s target) := by
  have hpos : ∀ l : List String, l ≠ [] →
      ∃ (j : Nat) (c : String),
        (findCloserMatch dl (StringOrArray.array l) target).index = (j : Int) ∧
        j < l.length ∧ l[j]? = some c ∧
        (findCloserMatch dl (StringOrArray.array l) target).distance
          = Distance.finite (dl c target) := by
    intro l hne
    obtain ⟨j, c, hj, hi, hm, -, -⟩ := findCloserMatchRun_spec dl l target hne
    have hlt : j < l.length := by
      by_contra hge
      rw [List.getElem?_eq_none (by omega)] at hj
      exact absurd hj (by simp)
    exact ⟨j, c, hi, hlt, hj, hm⟩
  refine ⟨⟨?_, ?_⟩, ?_, ?_⟩
  · intro hidx
    by_contra hne
    obtain ⟨j, c, hi, -⟩ := hpos candidates hne
    rw [hi] at hidx
    omega
  · intro hempty
    subst hempty
    rfl
  · intro hne
    obtain ⟨j, c, hi, hlt, hj, hm⟩ := hpos candidates hne
    refine ⟨j, c, hi, ?_, ?_, hj, hm⟩
    · rw [hi]; exact Int.natCast_nonneg j
    · rw [hi]; exact_mod_cast hlt
  · obtain ⟨j, c, hi, hlt, hj, hm⟩ := hpos [s] (by simp)
    have hj0 : j = 0 := by simpa using hlt
    subst hj0
    simp only [List.getElem?_cons_zero, Option.some.injEq] at hj
    subst hj
    exact ⟨hi, hm⟩

/-- Witness of C5 on `["abc", "abd"]` and target `"abx"`, with the modelled
Damerau-Levenshtein distance as the helper: the index is a position of the
array and not -1. -/
theorem findCloserMatch_index_witness :
    ∃ (j : Nat) (c : String),
      (findCloserMatch damerauLevenshtein (StringOrArray.array ["abc", "abd"]) "abx").index
        = (j : Int) ∧
      0 ≤ (findCloserMatch damerauLevenshtein (StringOrArray.array ["abc", "abd"]) "abx").index ∧
      (findCloserMatch damerauLevenshtein (StringOrArray.array ["abc", "abd"]) "abx").index
        < ((["abc", "abd"] : List String).length : Int) ∧
      (["abc", "abd"] : List String)[j]? = some c ∧
      (findCloserMatch damerauLevenshtein (StringOrArray.array ["abc", "abd"]) "abx").distance
        = Distance.finite (damerauLevenshtein c "abx") :=
  (findCloserMatch_index damerauLevenshtein ["abc", "abd"] "abc" "abx").2.1 (by decide)

/-- C6: a single string is handled as the one-element array holding it: the
run (result, distance computations and log) is the same, and the result is
index 0 with the distance between the string and `target`. -/
theorem findCloserMatch_single_string (dl : String → String → Nat) (s target : String) :
    findCloserMatch dl (StringOrArray.string s) target
        = findCloserMatch dl (StringOrArray.array [s]) target ∧
      findCloserMatchRun dl (StringOrArray.string s) target
        = findCloserMatchRun dl (StringOrArray.array [s]) target ∧
      findCloserMatch dl (StringOrArray.string s) target
        = { index := 0, distance := Distance.finite (dl s target) } := by
  refine ⟨rfl, rfl, ?_⟩
  obtain ⟨j, c, hj, hi, hm, -, -⟩ := findCloserMatchRun_spec dl [s] target (by simp)
  have hrun : findCloserMatchRun dl (StringOrArray.array [s]) target
      = findCloserMatchRun dl (StringOrArray.string s) target := rfl
  rw [hrun] at hi hm
  cases j with
  | zero =>
    simp at hj; subst hj
    unfold findCloserMatch
    simp only [hi, hm]
    rfl
  | succ k => simp at hj

/-- C10: the candidates are compared in input order, one log entry per
distance computation; with a helper that gives 0 exactly for equal strings,
the scan stops at the first candidate equal to `target` (index + 1
computations, nothing after it is compared) and otherwise covers the whole
array. -/
theorem findCloserMatch_scan (dl : String → String → Nat) (candidates : List String)
    (target : String) (hdl : ∀ c, dl c target = 0 ↔ c = target) :
    (findCloserMatchRun dl (StringOrArray.array candidates) target).console
        = (candidates.take (findCloserMatchRun dl (StringOrArray.array candidates) target).calls).map
            (fun c => ({ candidate := c, target := target, distance := dl c target } : DebugEntry)) ∧
      (findCloserMatchRun dl (StringOrArray.array candidates) target).console.length
        = (findCloserMatchRun dl (StringOrArray.array candidates) target).calls ∧
      (target ∈ candidates →
        ((findCloserMatchRun dl (StringOrArray.array candidates) target).calls : Int)
            = (findCloserMatch dl (StringOrArray.array candidates) target).index + 1 ∧
          ∃ j : Nat, candidates[j]? = some target ∧
            (∀ j' : Nat, j' < j → candidates[j']? ≠ some target) ∧
            (findCloserMatchRun dl (StringOrArray.array candidates) target).calls = j + 1) ∧
      (target ∉ candidates →
        (findCloserMatchRun dl (StringOrArray.array candidates) target).calls
          = candidates.length) := by
  have hcalls : (findCloserMatchRun dl (StringOrArray.array candidates) target).calls
      = scanned dl target candidates := by
    unfold findCloserMatchRun toArray
    rw [forLoop_calls]; simp [LoopState.initial]
  have hconsole : (findCloserMatchRun dl (StringOrArray.array candidates) target).console
      = (candidates.take (scanned dl target candidates)).map
          (fun c => ({ candidate := c, target := target, distance := dl c target } : DebugEntry)) := by
    unfold findCloserMatchRun toArray
    rw [forLoop_console]; simp [LoopState.initial]
  have hle : ∀ l : List String, scanned dl target l ≤ l.length := by
    intro l
    induction l with
    | nil => simp [scanned]
    | cons s rest ih => simp only [scanned, List.length_cons]; split <;> omega
  refine ⟨by rw [hconsole, hcalls], ?_, ?_, ?_⟩
  · rw [hconsole, hcalls, List.length_map, List.length_take]
    exact Nat.min_eq_left (hle candidates)
  · intro h
    obtain ⟨j, hj, hnot, hi, -, hc⟩ := findCloserMatchRun_exact dl candidates target hdl h
    refine ⟨?_, j, hj, hnot, hc⟩
    show _ = (findCloserMatchRun dl (StringOrArray.array candidates) target).index + 1
    rw [hc, hi]; push_cast; rfl
  · intro h
    rw [hcalls]
    exact scanned_all dl target candidates
      (fun c hc h0 => h (by rw [← (hdl c).1 h0]; exact hc))

/-- Witness of C10 on `["ab", "abc", "abd"]` and target `"abc"`, with the
modelled Damerau-Levenshtein distance as the helper: two comparisons. -/
theorem findCloserMatch_scan_witness :
    (findCloserMatchRun damerauLevenshtein (StringOrArray.array ["ab", "abc", "abd"]) "abc").console
        = [{ candidate := "ab", target := "abc", distance := 1 },
           { candidate := "abc", target := "abc", distance := 0 }] ∧
      (findCloserMatchRun damerauLevenshtein (StringOrArray.array ["ab", "abc", "abd"]) "abc").calls
        = 2 := by
  have h := findCloserMatch_scan damerauLevenshtein ["ab", "abc", "abd"] "abc"
    (fun c => damerauLevenshtein_eq_zero_iff c "abc")
  obtain ⟨j, hj, hnot, hc⟩ := (h.2.2.1 (by decide)).2
  have hj1 : j = 1 := by
    match j, hj, hnot with
    | 0, hj, _ => simp at hj
    | 1, _, _ => rfl
    | (k + 2), _, hnot => exact absurd (by decide) (hnot 1 (by omega))
  subst hj1
  refine ⟨?_, hc⟩
  rw [h.1, hc]
  decide

theorem walk_path (f : Forest) :
    ∀ (h : Bool) (parent : Path) (i : Nat) (l : Located), l ∈ walk h parent i f →
      ∃ (j : Nat) (tail : List Nat), i ≤ j ∧ l.path = parent ++ j :: tail := by
  induction f with
  | nil => intro h parent i l hl; simp [walk] at hl
  | cons e children siblings ihc ihs =>
    intro h parent i l hl
    simp only [walk, List.mem_cons, List.mem_append] at hl
    rcases hl with rfl | hl | hl
    · exact ⟨i, [], le_refl _, rfl⟩
    · obtain ⟨j, tail, -, hp⟩ := ihc _ _ _ l hl
      exact ⟨i, j :: tail, le_refl _, by rw [hp]; simp⟩
    · obtain ⟨j, tail, hj, hp⟩ := ihs _ _ _ l hl
      exact ⟨j, tail, by omega, hp⟩

theorem walk_pairwise (f : Forest) :
    ∀ (h : Bool) (parent : Path) (i : Nat), (walk h parent i f).Pairwise DocumentOrder := by
  induction f with
  | nil => intro h parent i; simp [walk]
  | cons e children siblings ihc ihs =>
    intro h parent i
    simp only [walk, List.pairwise_cons, List.pairwise_append, List.mem_append]
    refine ⟨?_, ihc _ _ _, ihs _ _ _, ?_⟩
    · intro l hl
      rcases hl with hl | hl
      · obtain ⟨j, tail, -, hp⟩ := walk_path children _ _ _ l hl
        show List.Lex _ (parent ++ [i]) l.path
        rw [hp, List.append_assoc]
        exact List.Lex.append_left _ (List.Lex.cons List.Lex.nil) parent
      · obtain ⟨j, tail, hj, hp⟩ := walk_path siblings _ _ _ l hl
        show List.Lex _ (parent ++ [i]) l.path
        rw [hp]
        exact List.Lex.append_left _ (List.Lex.rel (by omega)) parent
    · intro x hx y hy
      obtain ⟨j, tail, -, hp⟩ := walk_path children _ _ _ x hx
      obtain ⟨j', tail', hj', hp'⟩ := walk_path siblings _ _ _ y hy
      show List.Lex _ x.path y.path
      rw [hp, hp', List.append_assoc]
      exact List.Lex.append_left _ (List.Lex.rel (by omega)) parent

theorem walk_filter_under (f : Forest) :
    ∀ (h : Bool) (parent : Path) (i k : Nat) (rest : List Nat),
      (walk h parent i f).filter (fun l => (parent ++ (i + k) :: rest).isPrefixOf l.path) =
        match subtreeAt h f (k :: rest) with
        | some (h', e, children) =>
          { path := parent ++ (i + k) :: rest, element := e, hiddenAncestor := h' }
            :: walk (h' || e.hidden) (parent ++ (i + k) :: rest) 0 children
        | none => [] := by
  induction f with
  | nil => intro h parent i k rest; simp [walk, subtreeAt]
  | cons e children siblings ihc ihs =>
    intro h parent i k rest
    rw [walk, List.filter_cons, List.filter_append]
    cases k with
    | zero =>
      have hsib : (walk h parent (i + 1) siblings).filter
          (fun l => (parent ++ (i + 0) :: rest).isPrefixOf l.path) = [] := by
        rw [List.filter_eq_nil_iff]
        intro l hl
        obtain ⟨j, tail, hj, hp⟩ := walk_path siblings _ _ _ l hl
        rw [hp]
        simp only [List.isPrefixOf_iff_prefix, List.prefix_append_right_inj,
          List.cons_prefix_cons, not_and]
        intro hij; omega
      rw [hsib, List.append_nil]
      cases rest with
      | nil =>
        have hch : (walk (h || e.hidden) (parent ++ [i]) 0 children).filter
            (fun l => (parent ++ [i + 0]).isPrefixOf l.path)
            = walk (h || e.hidden) (parent ++ [i]) 0 children := by
          rw [List.filter_eq_self]
          intro l hl
          obtain ⟨j, tail, -, hp⟩ := walk_path children _ _ _ l hl
          rw [hp]
          simp
        rw [hch]
        simp [subtreeAt]
      | cons k' rest' =>
        have hroot : ¬ ((parent ++ (i + 0) :: k' :: rest').isPrefixOf (parent ++ [i]) = true) := by
          simp
        rw [if_neg hroot]
        have := ihc (h || e.hidden) (parent ++ [i]) 0 k' rest'
        simp only [List.append_assoc, List.singleton_append, Nat.zero_add] at this
        simp only [Nat.add_zero]
        rw [this]
        simp [subtreeAt]
    | succ k' =>
      have hroot : ¬ ((parent ++ (i + (k' + 1)) :: rest).isPrefixOf (parent ++ [i]) = true) := by
        simp
      rw [if_neg hroot]
      have hch : (walk (h || e.hidden) (parent ++ [i]) 0 children).filter
          (fun l => (parent ++ (i + (k' + 1)) :: rest).isPrefixOf l.path) = [] := by
        rw [List.filter_eq_nil_iff]
        intro l hl
        obtain ⟨j, tail, -, hp⟩ := walk_path children _ _ _ l hl
        rw [hp]
        simp only [List.isPrefixOf_iff_prefix, List.append_assoc, List.singleton_append,
          List.prefix_append_right_inj, List.cons_prefix_cons, not_and]
        intro hij; omega
      rw [hch, List.nil_append]
      have := ihs h parent (i + 1) k' rest
      rw [show i + 1 + k' = i + (k' + 1) by omega] at this
      rw [this]
      simp [subtreeAt]

theorem lex_irrefl : ∀ p : List Nat, ¬ List.Lex (fun x y : Nat => x < y) p p := by
  intro p
  induction p with
  | nil => intro h; cases h
  | cons a p ih =>
    intro h
    cases h with
    | cons h' => exact ih h'
    | rel h' => exact Nat.lt_irrefl a h'

/-- C9: for an element `a` of the document, `getLinks({ancestor: a})` is the
list of the elements of `getLinks()` lying in the subtree rooted at `a`, in
the same order; and `getLinks()` is the list of the hyperlink elements
exposed to assistive technology, in document (depth-first, pre-order) order,
no element twice. -/
theorem getLinks_scope_and_order (doc : Forest) :
    (∀ a : Path, (∃ l ∈ getElements doc, l.path = a) →
      getLinks doc (some a) = (getLinks doc none).filter (fun l => a.isPrefixOf l.path)) ∧
    (∀ l : Located, l ∈ getLinks doc none ↔
      l ∈ getElements doc ∧ l.element.hyperlink = true ∧ exposed l = true) ∧
    (getLinks doc none).Pairwise DocumentOrder ∧
    ((getLinks doc none).map Located.path).Nodup := by
  have hpair : (getLinks doc none).Pairwise DocumentOrder :=
    List.Pairwise.filter _ (walk_pairwise doc false [] 0)
  refine ⟨?_, ?_, hpair, ?_⟩
  · rintro a ⟨l, hl, rfl⟩
    obtain ⟨j, tail, -, hp⟩ := walk_path doc false [] 0 l hl
    have key := walk_filter_under doc false [] 0 j tail
    simp only [List.nil_append, Nat.zero_add] at key hp
    rw [hp]
    show List.filter isVisibleLink
        (match subtreeAt false doc (j :: tail) with
          | some (h, e, children) =>
            { path := j :: tail, element := e, hiddenAncestor := h }
              :: walk (h || e.hidden) (j :: tail) 0 children
          | none => [])
      = List.filter (fun l => (j :: tail).isPrefixOf l.path)
          (List.filter isVisibleLink (walk false [] 0 doc))
    rw [← key, List.filter_filter, List.filter_filter]
    congr 1
    funext x
    exact Bool.and_comm _ _
  · intro l
    simp [getLinks, searchScope, isVisibleLink]
  · rw [List.Nodup, List.pairwise_map]
    refine List.Pairwise.imp ?_ hpair
    intro x y hxy heq
    unfold DocumentOrder at hxy
    rw [heq] at hxy
    exact lex_irrefl _ hxy

/-- Witness of C9 on the example page with the footer (third top-level
element) as ancestor: of the two visible links of the page, the one in the
footer is returned. -/
theorem getLinks_scope_and_order_witness :
    getLinks examplePage (some [2])
        = (getLinks examplePage none).filter (fun l => List.isPrefixOf [2] l.path) ∧
      getLinks examplePage none
        = [{ path := [0, 0], element := Element.anchor, hiddenAncestor := false },
           { path := [2, 0], element := Element.anchor, hiddenAncestor := false }] ∧
      getLinks examplePage (some [2])
        = [{ path := [2, 0], element := Element.anchor, hiddenAncestor := false }] :=
  ⟨(getLinks_scope_and_order examplePage).1 [2]
      ⟨{ path := [2], element := Element.plain, hiddenAncestor := false }, by decide, rfl⟩,
    by decide, by decide⟩

theorem getElements_nodup (doc : Forest) : (getElements doc).Nodup := by
  apply List.Nodup.of_map Located.path
  rw [List.Nodup, List.pairwise_map]
  refine List.Pairwise.imp ?_ (walk_pairwise doc false [] 0)
  intro x y hxy heq
  unfold DocumentOrder at hxy
  rw [heq] at hxy
  exact lex_irrefl _ hxy

theorem filter_eq_singleton {α : Type} {L : List α} (hL : L.Nodup) (p : α → Bool) {m : α}
    (hm : m ∈ L) (hp : p m = true) (huniq : ∀ m' ∈ L, p m' = true → m' = m) :
    L.filter p = [m] := by
  have hmem : m ∈ L.filter p := List.mem_filter.2 ⟨hm, hp⟩
  have hall : ∀ x ∈ L.filter p, x = m := fun x hx =>
    huniq x (List.mem_filter.1 hx).1 (List.mem_filter.1 hx).2
  have hnd : (L.filter p).Nodup := hL.filter p
  cases hF : L.filter p with
  | nil => rw [hF] at hmem; simp at hmem
  | cons x rest =>
    rw [hF] at hall hnd
    have hx : x = m := hall x (by simp)
    cases rest with
    | nil => rw [hx]
    | cons y rest' =>
      have hy : y = m := hall y (by simp)
      rw [hx, hy] at hnd
      simp at hnd

theorem filter_two {α : Type} {L : List α} (p : α → Bool) {m m' : α}
    (hm : m ∈ L) (hp : p m = true) (hm' : m' ∈ L) (hp' : p m' = true) (hne : m ≠ m') :
    ∃ x y rest, L.filter p = x :: y :: rest := by
  have h1 : m ∈ L.filter p := List.mem_filter.2 ⟨hm, hp⟩
  have h2 : m' ∈ L.filter p := List.mem_filter.2 ⟨hm', hp'⟩
  cases hF : L.filter p with
  | nil => rw [hF] at h1; simp at h1
  | cons x rest =>
    cases rest with
    | nil =>
      rw [hF] at h1 h2
      simp only [List.mem_singleton] at h1 h2
      exact absurd (h1.trans h2.symm) hne
    | cons y rest' => exact ⟨x, y, rest', rfl⟩

/-- C7: `getMain()` returns an element only when it is the unique candidate
of its stage. The only main-landmark element of a document is returned; with
no main-landmark element, the only element whose markers suggest a
main-content container is returned; two main-landmark elements, or no
main-landmark element and two suggested containers or none, give `null`. -/
theorem getMain_unique_candidate (doc : Forest) :
    (∀ m ∈ getElements doc, m.element.mainLandmark = true →
      (∀ m' ∈ getElements doc, m'.element.mainLandmark = true → m' = m) →
      getMain doc = some m) ∧
    (∀ p ∈ getElements doc, (∀ m ∈ getElements doc, m.element.mainLandmark = false) →
      p.element.suggestsMain = true →
      (∀ p' ∈ getElements doc, p'.element.suggestsMain = true → p' = p) →
      getMain doc = some p) ∧
    (∀ m ∈ getElements doc, ∀ m' ∈ getElements doc, m.element.mainLandmark = true →
      m'.element.mainLandmark = true → m ≠ m' → getMain doc = none) ∧
    (∀ p ∈ getElements doc, ∀ p' ∈ getElements doc,
      (∀ m ∈ getElements doc, m.element.mainLandmark = false) →
      p.element.suggestsMain = true → p'.element.suggestsMain = true → p ≠ p' →
      getMain doc = none) ∧
    ((∀ m ∈ getElements doc, m.element.mainLandmark = false) →
      (∀ p ∈ getElements doc, p.element.suggestsMain = false) → getMain doc = none) ∧
    (∀ e : Located, getMain doc = some e →
      e ∈ getElements doc ∧
      ((e.element.mainLandmark = true ∧
          ∀ m ∈ getElements doc, m.element.mainLandmark = true → m = e) ∨
        ((∀ m ∈ getElements doc, m.element.mainLandmark = false) ∧
          e.element.suggestsMain = true ∧
          ∀ p ∈ getElements doc, p.element.suggestsMain = true → p = e))) := by
  have hnd := getElements_nodup doc
  have hnone : (∀ m ∈ getElements doc, m.element.mainLandmark = false) →
      (getElements doc).filter (fun l => l.element.mainLandmark) = [] := by
    intro h
    rw [List.filter_eq_nil_iff]
    intro a ha
    simp [h a ha]
  refine ⟨?_, ?_, ?_, ?_, ?_, ?_⟩
  · intro m hm hp huniq
    unfold getMain
    rw [filter_eq_singleton hnd (fun l => l.element.mainLandmark) hm hp huniq]
  · intro p hp hno hs huniq
    unfold getMain
    rw [hnone hno, filter_eq_singleton hnd (fun l => l.element.suggestsMain) hp hs huniq]
  · intro m hm m' hm' hp hp' hne
    obtain ⟨x, y, rest, hF⟩ := filter_two (fun l : Located => l.element.mainLandmark) hm hp hm' hp' hne
    unfold getMain
    rw [hF]
  · intro p hp p' hp' hno hs hs' hne
    obtain ⟨x, y, rest, hF⟩ := filter_two (fun l : Located => l.element.suggestsMain) hp hs hp' hs' hne
    unfold getMain
    rw [hnone hno, hF]
  · intro hno hnos
    have hF : (getElements doc).filter (fun l => l.element.suggestsMain) = [] := by
      rw [List.filter_eq_nil_iff]
      intro a ha
      simp [hnos a ha]
    unfold getMain
    rw [hnone hno, hF]
  · intro e he
    unfold getMain at he
    have single : ∀ (p : Located → Bool) (x : Located), (getElements doc).filter p = [x] →
        x ∈ getElements doc ∧ p x = true ∧ ∀ y ∈ getElements doc, p y = true → y = x := by
      intro p x hF
      have hx : x ∈ (getElements doc).filter p := by rw [hF]; simp
      refine ⟨(List.mem_filter.1 hx).1, (List.mem_filter.1 hx).2, ?_⟩
      intro y hy hpy
      have : y ∈ (getElements doc).filter p := List.mem_filter.2 ⟨hy, hpy⟩
      rw [hF] at this
      simpa using this
    cases hM : (getElements doc).filter (fun l => l.element.mainLandmark) with
    | nil =>
      rw [hM] at he
      have hno : ∀ m ∈ getElements doc, m.element.mainLandmark = false := by
        intro m hm
        have := List.filter_eq_nil_iff.1 hM m hm
        simpa using this
      cases hS : (getElements doc).filter (fun l => l.element.suggestsMain) with
      | nil => rw [hS] at he; simp at he
      | cons x rest =>
        cases rest with
        | nil =>
          rw [hS] at he
          simp only [Option.some.injEq] at he
          subst he
          obtain ⟨h1, h2, h3⟩ := single _ x hS
          exact ⟨h1, Or.inr ⟨hno, h2, h3⟩⟩
        | cons y rest' => rw [hS] at he; simp at he
    | cons x rest =>
      cases rest with
      | nil =>
        rw [hM] at he
        simp only [Option.some.injEq] at he
        subst he
        obtain ⟨h1, h2, h3⟩ := single _ x hM
        exact ⟨h1, Or.inl ⟨h2, h3⟩⟩
      | cons y rest' => rw [hM] at he; simp at he

/-- Witness of C7 on the example page: its only main-landmark element, the
second top-level element, is returned. -/
theorem getMain_unique_candidate_witness :
    getMain examplePage = some
      { path := [1], element := { Element.plain with mainLandmark := true },
        hiddenAncestor := false } :=
  (getMain_unique_candidate examplePage).1
    { path := [1], element := { Element.plain with mainLandmark := true },
      hiddenAncestor := false }
    (by decide) rfl (by decide)

theorem getElem?_append_singleton {α : Type} (l : List α) (x : α) (i : Nat) (n : α)
    (h : (l ++ [x])[i]? = some n) :
    (i < l.length ∧ l[i]? = some n) ∨ (i = l.length ∧ n = x) := by
  rcases Nat.lt_trichotomy i l.length with hlt | heq | hgt
  · left; rw [List.getElem?_append_left hlt] at h; exact ⟨hlt, h⟩
  · right; subst heq; simp at h; exact ⟨rfl, h.symm⟩
  · rw [List.getElem?_eq_none (by simp; omega)] at h; simp at h

theorem getElem?_append_of_some {α : Type} (l : List α) (x : α) (j : Nat) (n : α)
    (h : l[j]? = some n) : j < l.length ∧ (l ++ [x])[j]? = some n := by
  have hlt : j < l.length := by
    by_contra hge
    rw [List.getElem?_eq_none (by omega)] at h
    simp at h
  exact ⟨hlt, by rw [List.getElem?_append_left hlt]; exact h⟩

theorem speaker_invariant_create : Speaker.Invariant Speaker.create where
  start_speaking := by intro n hn; simp [Speaker.create] at hn
  end_idle := by intro n hn; simp [Speaker.create] at hn
  start_before_end := by intro i n hn; simp [Speaker.create] at hn
  in_flight := by intro h; simp [Speaker.create] at h

theorem speaker_invariant_step {s s' : Speaker} (a : Action) (inv : Speaker.Invariant s)
    (h : s.step a = some s') : Speaker.Invariant s' := by
  cases a with
  | speak =>
    cases hs : s.state with
    | Speaking => simp [Speaker.step, hs] at h
    | Idle =>
      simp only [Speaker.step, hs, Option.some.injEq] at h
      subst h
      exact ⟨inv.start_speaking, inv.end_idle, inv.start_before_end, by intro _ h2; simp at h2⟩
  | cancel =>
    simp only [Speaker.step, Option.some.injEq] at h
    subst h
    exact ⟨inv.start_speaking, inv.end_idle, inv.start_before_end, by intro h1; simp at h1⟩
  | platformStart =>
    by_cases hg : s.state = PlaybackState.Speaking ∧ s.started = false
    · simp only [Speaker.step, if_pos hg, Option.some.injEq] at h
      subst h
      refine ⟨?_, ?_, ?_, ?_⟩
      · intro n hn hname
        simp only [Speaker.publish, List.mem_append, List.mem_singleton] at hn
        rcases hn with hn | rfl
        · exact inv.start_speaking n hn hname
        · simp [Speaker.isSpeaking, hg.1]
      · intro n hn hname
        simp only [Speaker.publish, List.mem_append, List.mem_singleton] at hn
        rcases hn with hn | rfl
        · exact inv.end_idle n hn hname
        · simp at hname
      · intro i n hn hname
        rcases getElem?_append_singleton _ _ i n hn with ⟨-, hn'⟩ | ⟨-, rfl⟩
        · obtain ⟨j, hj, hjn⟩ := inv.start_before_end i n hn' hname
          exact ⟨j, hj, (getElem?_append_of_some _ _ j _ hjn).2⟩
        · simp at hname
      · intro _ _
        refine ⟨s.delivered.length, ?_⟩
        simp [Speaker.publish, Speaker.isSpeaking, hg.1]
    · simp [Speaker.step, if_neg hg] at h
  | platformEnd =>
    by_cases hg : s.state = PlaybackState.Speaking ∧ s.started = true
    · simp only [Speaker.step, if_pos hg, Option.some.injEq] at h
      subst h
      refine ⟨?_, ?_, ?_, ?_⟩
      · intro n hn hname
        simp only [Speaker.publish, List.mem_append, List.mem_singleton] at hn
        rcases hn with hn | rfl
        · exact inv.start_speaking n hn hname
        · simp at hname
      · intro n hn hname
        simp only [Speaker.publish, List.mem_append, List.mem_singleton] at hn
        rcases hn with hn | rfl
        · exact inv.end_idle n hn hname
        · simp [Speaker.isSpeaking]
      · intro i n hn hname
        rcases getElem?_append_singleton _ _ i n hn with ⟨-, hn'⟩ | ⟨hi, rfl⟩
        · obtain ⟨j, hj, hjn⟩ := inv.start_before_end i n hn' hname
          exact ⟨j, hj, (getElem?_append_of_some _ _ j _ hjn).2⟩
        · obtain ⟨j, hjn⟩ := inv.in_flight hg.1 hg.2
          obtain ⟨hlt, hj'⟩ := getElem?_append_of_some _
            ({ name := EventName.synthesisend, utterance := s.utterance, speaking := false }) j _ hjn
          refine ⟨j, by rw [hi]; exact hlt, ?_⟩
          simpa [Speaker.publish, Speaker.isSpeaking] using hj'
      · intro h1; simp [Speaker.publish] at h1
    · simp [Speaker.step, if_neg hg] at h
  | platformError =>
    by_cases hg : s.state = PlaybackState.Speaking ∧ s.started = true
    · simp only [Speaker.step, if_pos hg, Option.some.injEq] at h
      subst h
      refine ⟨?_, ?_, ?_, ?_⟩
      · intro n hn hname
        simp only [Speaker.publish, List.mem_append, List.mem_singleton] at hn
        rcases hn with hn | rfl
        · exact inv.start_speaking n hn hname
        · simp at hname
      · intro n hn hname
        simp only [Speaker.publish, List.mem_append, List.mem_singleton] at hn
        rcases hn with hn | rfl
        · exact inv.end_idle n hn hname
        · simp at hname
      · intro i n hn hname
        rcases getElem?_append_singleton _ _ i n hn with ⟨-, hn'⟩ | ⟨-, rfl⟩
        · obtain ⟨j, hj, hjn⟩ := inv.start_before_end i n hn' hname
          exact ⟨j, hj, (getElem?_append_of_some _ _ j _ hjn).2⟩
        · simp at hname
      · intro h1; simp [Speaker.publish] at h1
    · simp [Speaker.step, if_neg hg] at h

theorem speaker_invariant_run (actions : List Action) :
    ∀ {s s' : Speaker}, Speaker.Invariant s → s.run actions = some s' →
      Speaker.Invariant s' := by
  induction actions with
  | nil => intro s s' inv h; simp only [Speaker.run, Option.some.injEq] at h; subst h; exact inv
  | cons a rest ih =>
    intro s s' inv h
    cases hs : s.step a with
    | none => simp [Speaker.run, hs] at h
    | some s1 =>
      simp only [Speaker.run, hs] at h
      exact ih (speaker_invariant_step a inv hs) h

theorem speaker_run_append (pre post : List Action) :
    ∀ s : Speaker, s.run (pre ++ post) =
      match s.run pre with
      | some s1 => s1.run post
      | none => none := by
  induction pre with
  | nil => intro s; rfl
  | cons a rest ih =>
    intro s
    cases hs : s.step a with
    | none => simp [Speaker.run, hs]
    | some s1 => simp only [List.cons_append, Speaker.run, hs]; exact ih s1

theorem speaker_run_idle (post : List Action) :
    ∀ {s s' : Speaker}, s.state = PlaybackState.Idle → Action.speak ∉ post →
      s.run post = some s' → s'.state = PlaybackState.Idle := by
  induction post with
  | nil => intro s s' hs _ h; simp only [Speaker.run, Option.some.injEq] at h; subst h; exact hs
  | cons a rest ih =>
    intro s s' hs hno h
    have ha : a ≠ Action.speak := fun e => hno (by simp [e])
    have hrest : Action.speak ∉ rest := fun e => hno (by simp [e])
    cases a with
    | speak => exact absurd rfl ha
    | cancel =>
      simp only [Speaker.run, Speaker.step] at h
      exact ih rfl hrest h
    | platformStart => simp [Speaker.run, Speaker.step, hs] at h
    | platformEnd => simp [Speaker.run, Speaker.step, hs] at h
    | platformError => simp [Speaker.run, Speaker.step, hs] at h

/-- C8: the playback state follows
`Idle --speak--> Speaking --(complete | cancel | error)--> Idle`. A new
speaker is not speaking, nor is one after `cancel()`; in every run from a new
speaker, `isSpeaking()` is true when a `synthesisstart` is delivered, false
when a `synthesisend` is delivered and from then on until the next `speak()`,
and the `synthesisstart` of an utterance is delivered before its
`synthesisend`. -/
theorem speaker_playback_state (actions : List Action) (s : Speaker)
    (h : Speaker.create.run actions = some s) :
    Speaker.create.isSpeaking = false ∧
    (∀ s' : Speaker, s.step Action.cancel = some s' → s'.isSpeaking = false) ∧
    (∀ (a : Action) (s' : Speaker), s.step a = some s' →
      (a = Action.speak → s.isSpeaking = false ∧ s'.isSpeaking = true) ∧
      (a = Action.platformStart → s.isSpeaking = true ∧ s'.isSpeaking = true) ∧
      (a = Action.platformEnd ∨ a = Action.platformError ∨ a = Action.cancel →
        s'.isSpeaking = false)) ∧
    (∀ n ∈ s.delivered, n.name = EventName.synthesisstart → n.speaking = true) ∧
    (∀ n ∈ s.delivered, n.name = EventName.synthesisend → n.speaking = false) ∧
    (∀ pre post : List Action, actions = pre ++ Action.platformEnd :: post →
      Action.speak ∉ post → s.isSpeaking = false) ∧
    (∀ (i : Nat) (n : Notification), s.delivered[i]? = some n →
      n.name = EventName.synthesisend →
      ∃ j : Nat, j < i ∧ s.delivered[j]? = some
        { name := EventName.synthesisstart, utterance := n.utterance, speaking := true }) := by
  have inv := speaker_invariant_run actions speaker_invariant_create h
  refine ⟨rfl, ?_, ?_, inv.start_speaking, inv.end_idle, ?_, inv.start_before_end⟩
  · intro s' hs
    simp only [Speaker.step, Option.some.injEq] at hs
    subst hs
    rfl
  · intro a s' hs
    cases a with
    | speak =>
      cases hst : s.state with
      | Speaking => simp [Speaker.step, hst] at hs
      | Idle =>
        simp only [Speaker.step, hst, Option.some.injEq] at hs
        subst hs
        simp [Speaker.isSpeaking, hst]
    | cancel =>
      simp only [Speaker.step, Option.some.injEq] at hs
      subst hs
      simp [Speaker.isSpeaking]
    | platformStart =>
      by_cases hg : s.state = PlaybackState.Speaking ∧ s.started = false
      · simp only [Speaker.step, if_pos hg, Option.some.injEq] at hs
        subst hs
        simp [Speaker.isSpeaking, Speaker.publish, hg.1]
      · simp [Speaker.step, if_neg hg] at hs
    | platformEnd =>
      by_cases hg : s.state = PlaybackState.Speaking ∧ s.started = true
      · simp only [Speaker.step, if_pos hg, Option.some.injEq] at hs
        subst hs
        simp [Speaker.isSpeaking, Speaker.publish]
      · simp [Speaker.step, if_neg hg] at hs
    | platformError =>
      by_cases hg : s.state = PlaybackState.Speaking ∧ s.started = true
      · simp only [Speaker.step, if_pos hg, Option.some.injEq] at hs
        subst hs
        simp [Speaker.isSpeaking, Speaker.publish]
      · simp [Speaker.step, if_neg hg] at hs
  · intro pre post hact hno
    rw [hact, speaker_run_append] at h
    cases h1 : Speaker.create.run pre with
    | none => simp [h1] at h
    | some s1 =>
      simp only [h1] at h
      cases h2 : s1.step Action.platformEnd with
      | none => simp [Speaker.run, h2] at h
      | some s2 =>
        simp only [Speaker.run, h2] at h
        have hidle : s2.state = PlaybackState.Idle := by
          by_cases hg : s1.state = PlaybackState.Speaking ∧ s1.started = true
          · simp only [Speaker.step, if_pos hg, Option.some.injEq] at h2
            subst h2
            rfl
          · simp [Speaker.step, if_neg hg] at h2
        have := speaker_run_idle post hidle hno h
        simp [Speaker.isSpeaking, this]

/-- Witness of C8: one utterance spoken to completion, then `cancel()` and a
second utterance that the platform has started. -/
theorem speaker_playback_state_witness :
    Speaker.create.run [Action.speak, Action.platformStart, Action.platformEnd,
        Action.cancel, Action.speak, Action.platformStart]
      = some { state := PlaybackState.Speaking, utterance := 2, started := true,
               delivered := [{ name := EventName.synthesisstart, utterance := 1, speaking := true },
                             { name := EventName.synthesisend, utterance := 1, speaking := false },
                             { name := EventName.synthesisstart, utterance := 2, speaking := true }] } ∧
    (∀ n ∈ [({ name := EventName.synthesisstart, utterance := 1, speaking := true } : Notification),
            { name := EventName.synthesisend, utterance := 1, speaking := false },
            { name := EventName.synthesisstart, utterance := 2, speaking := true }],
      n.name = EventName.synthesisend → n.speaking = false) :=
  ⟨by decide,
   (speaker_playback_state
      [Action.speak, Action.platformStart, Action.platformEnd, Action.cancel, Action.speak,
        Action.platformStart]
      { state := PlaybackState.Speaking, utterance := 2, started := true,
        delivered := [{ name := EventName.synthesisstart, utterance := 1, speaking := true },
                      { name := EventName.synthesisend, utterance := 1, speaking := false },
                      { name := EventName.synthesisstart, utterance := 2, speaking := true }] }
      (by decide)).2.2.2.2.1⟩

end WebReader
